import Mathlib

/-!
Shallow embedding of the FxHasher algorithm from `rustc-hash` (src/lib.rs),
together with proofs of the specification claims about it.

Conventions of the embedding:
* machine words are `Nat` values reduced modulo `2 ^ w.bits`, where the target
  width `w : Width` is `w32` or `w64` (the two widths the crate supports);
* a byte is `Fin 256`; byte buffers are `List Byte`;
* native byte order is modelled as little-endian (the order of the targets the
  test vectors of the crate were produced on); `from_ne_bytes` therefore reads the
  first byte of a chunk as the least significant one;
* the hasher state (`struct FxHasher { hash: usize }`) is the bare accumulator
  word, and the `while let` loop of `FxHasher::write` is modelled with a fuel
  argument equal to the buffer length, which is enough fuel because each
  iteration consumes at least one byte.
-/

abbrev Byte := Fin 256

/-- The two native word widths supported by the crate
(`cfg(target_pointer_width = "32" / "64")`). -/
inductive Width
  | w32
  | w64
deriving DecidableEq

/-- Accumulator width in bits. -/
def Width.bits : Width → Nat
  | .w32 => 32
  | .w64 => 64

/-- Accumulator width in bytes (`size_of::<usize>()`). -/
def Width.wordBytes : Width → Nat
  | .w32 => 4
  | .w64 => 8

/-- The multiplicative constant `K` of src/lib.rs, selected per target width. -/
def Width.K : Width → Nat
  | .w32 => 0x9e3779b9
  | .w64 => 0x517cc1b727220a95

/-- Rust `usize::rotate_left`: bits shifted out at the top re-enter at the bottom. -/
def rotateLeft (bits a r : Nat) : Nat :=
  ((a <<< r) % 2 ^ bits) ||| (a >>> (bits - r))

/-- Source `FxHasher::add_to_hash`:
`self.hash = self.hash.rotate_left(5).bitxor(i).wrapping_mul(K)`. -/
def FxHasher.add_to_hash (w : Width) (hash i : Nat) : Nat :=
  (rotateLeft w.bits hash 5 ^^^ i) * w.K % 2 ^ w.bits

/-- Rust `usize::from_ne_bytes` / `u32::from_ne_bytes` / `u16::from_ne_bytes`
(little-endian native order): first byte is least significant. -/
def fromNeBytes : List Byte → Nat
  | [] => 0
  | b :: rest => b.val + 256 * fromNeBytes rest

/-- Rust `uN::to_ne_bytes` (little-endian): the `n` native-order bytes of `v`. -/
def toNeBytes : Nat → Nat → List Byte
  | 0, _ => []
  | n + 1, v => ⟨v % 256, Nat.mod_lt v (by norm_num)⟩ :: toNeBytes n (v / 256)

/-- Source `take_first_chunk::<N>`: split off the first `N` bytes of the slice, or
`None` when fewer than `N` remain.  (The `try_into().unwrap()` inside the
source function is modelled separately by `take_first_chunk_checked`.) -/
def take_first_chunk (n : Nat) (s : List Byte) : Option (List Byte × List Byte) :=
  if s.length < n then none else some (s.take n, s.drop n)

/-- One fold of the accumulator with one chunk, as performed by every branch of
`FxHasher::write`: read the chunk in native order and `add_to_hash` it. -/
def mixStep (w : Width) (a : Nat) (c : List Byte) : Nat :=
  FxHasher.add_to_hash w a (fromNeBytes c)

/-- The `while let Some(..) = take_first_chunk(..)` loop shape of
`FxHasher::write`, with explicit fuel.  `step` is the loop body. -/
def loopChunks {α : Type} (wb : Nat) (step : α → List Byte → α) :
    Nat → α → List Byte → α × List Byte
  | 0, acc, bytes => (acc, bytes)
  | fuel + 1, acc, bytes =>
    match take_first_chunk wb bytes with
    | none => (acc, bytes)
    | some (c, rest) => loopChunks wb step fuel (step acc c) rest

/-- The word-sized loop of `FxHasher::write`: fold native words while at least
one word of bytes remains.  Returns the new accumulator and the leftover
bytes. -/
def FxHasher.writeWords (w : Width) (h : Nat) (bytes : List Byte) : Nat × List Byte :=
  loopChunks w.wordBytes (mixStep w) bytes.length h bytes

/-- One `if let Some(..) = take_first_chunk::<n>(..)` tail branch of
`FxHasher::write`. -/
def FxHasher.writeChunkStep (w : Width) (n : Nat) (p : Nat × List Byte) :
    Nat × List Byte :=
  match take_first_chunk n p.2 with
  | none => p
  | some (c, rest) => (mixStep w p.1 c, rest)

/-- Source `FxHasher::write`: fold word-sized chunks, then at most one 4-byte, one
2-byte and one 1-byte chunk, in that order. -/
def FxHasher.write (w : Width) (h : Nat) (bytes : List Byte) : Nat :=
  (FxHasher.writeChunkStep w 1 (FxHasher.writeChunkStep w 2
    (FxHasher.writeChunkStep w 4 (FxHasher.writeWords w h bytes)))).1

/-- Source `FxHasher::finish`: `self.hash as u64` (zero-extension on 32-bit targets). -/
def FxHasher.finish (hash : Nat) : Nat :=
  hash % 2 ^ 64

/-- Source `FxHasher::finish` viewed as an operation on the hasher: it takes `&self`,
so it returns the digest together with the (unchanged) state. -/
def FxHasher.finishOp (hash : Nat) : Nat × Nat :=
  (hash % 2 ^ 64, hash)

/-- Source `FxHasher::default`: zero-seeded state. -/
def FxHasher.default : Nat := 0

/-- Source `FxHasher::with_seed`: explicitly seeded state. -/
def FxHasher.with_seed (seed : Nat) : Nat := seed

/-- A sequence of `write` calls on one hasher. -/
def FxHasher.writeList (w : Width) (h : Nat) (slices : List (List Byte)) : Nat :=
  slices.foldl (FxHasher.write w) h

/-- Core `Hasher::write_u8` default method: `self.write(&[i])`. -/
def FxHasher.write_u8 (w : Width) (h v : Nat) : Nat :=
  FxHasher.write w h (toNeBytes 1 v)

/-- Core `Hasher::write_u16` default method: `self.write(&i.to_ne_bytes())`. -/
def FxHasher.write_u16 (w : Width) (h v : Nat) : Nat :=
  FxHasher.write w h (toNeBytes 2 v)

/-- Core `Hasher::write_u32` default method: `self.write(&i.to_ne_bytes())`. -/
def FxHasher.write_u32 (w : Width) (h v : Nat) : Nat :=
  FxHasher.write w h (toNeBytes 4 v)

/-- Core `Hasher::write_u64` default method: `self.write(&i.to_ne_bytes())`. -/
def FxHasher.write_u64 (w : Width) (h v : Nat) : Nat :=
  FxHasher.write w h (toNeBytes 8 v)

/-- Core `Hasher::write_usize` default method: `self.write(&i.to_ne_bytes())`. -/
def FxHasher.write_usize (w : Width) (h v : Nat) : Nat :=
  FxHasher.write w h (toNeBytes w.wordBytes v)

/-- The `try_into().unwrap()` inside `take_first_chunk`: converting the
`N`-byte slice produced by `split_at` into an `N`-byte array, which fails
(`None` here, a panic in the source) when the length is not exactly `N`. -/
def try_into (n : Nat) (l : List Byte) : Option (List Byte) :=
  if l.length = n then some l else none

/-- Source `take_first_chunk` with the `try_into().unwrap()` left explicit: the inner
`Option` is the result of the array conversion whose failure would panic. -/
def take_first_chunk_checked (n : Nat) (s : List Byte) :
    Option (Option (List Byte) × List Byte) :=
  if s.length < n then none else some (try_into n (s.take n), s.drop n)

/-- The word loop of `FxHasher::write` with the conversion failure propagated
instead of unwrapped: a `none` accumulator marks a panic. -/
def loopChunksChecked (w : Width) (wb : Nat) :
    Nat → Option Nat → List Byte → Option Nat × List Byte
  | 0, acc, bytes => (acc, bytes)
  | fuel + 1, acc, bytes =>
    match take_first_chunk_checked wb bytes with
    | none => (acc, bytes)
    | some (copt, rest) =>
      loopChunksChecked w wb fuel
        (match acc, copt with
         | some a, some c => some (mixStep w a c)
         | _, _ => none) rest

/-- One tail branch of `FxHasher::write` with the conversion failure
propagated instead of unwrapped. -/
def FxHasher.writeChunkStepChecked (w : Width) (n : Nat) (p : Option Nat × List Byte) :
    Option Nat × List Byte :=
  match take_first_chunk_checked n p.2 with
  | none => p
  | some (copt, rest) =>
    match p.1, copt with
    | some a, some c => (some (mixStep w a c), rest)
    | _, _ => (none, rest)

/-- Source `FxHasher::write` with every `try_into().unwrap()` made explicit: returns
`none` exactly when some unwrap would have panicked. -/
def FxHasher.writeChecked (w : Width) (h : Nat) (bytes : List Byte) : Option Nat :=
  (FxHasher.writeChunkStepChecked w 1 (FxHasher.writeChunkStepChecked w 2
    (FxHasher.writeChunkStepChecked w 4
      (loopChunksChecked w w.wordBytes bytes.length (some h) bytes)))).1

/-- The maximal word-sized chunks taken by the word loop, in order (the
decomposition the spec describes, accumulated with the same
`take_first_chunk` discipline as the loop itself). -/
def wordChunks (w : Width) (bytes : List Byte) : List (List Byte) :=
  (loopChunks w.wordBytes (fun l c => l ++ [c]) bytes.length [] bytes).1

/-- The bytes left over after the word loop. -/
def wordRest (w : Width) (bytes : List Byte) : List Byte :=
  (loopChunks w.wordBytes (fun l c => l ++ [c]) bytes.length [] bytes).2

/-- At most one chunk of size `n` from the front of the remainder, plus what is
left (the shape of each tail branch of `FxHasher::write`). -/
def chunkSplit (n : Nat) (r : List Byte) : List (List Byte) × List Byte :=
  match take_first_chunk n r with
  | none => ([], r)
  | some (c, rest) => ([c], rest)

/-- The at-most-one 4-, 2- and 1-byte tail chunks, in descending size order. -/
def tailChunks (r : List Byte) : List (List Byte) :=
  (chunkSplit 4 r).1
    ++ (chunkSplit 2 (chunkSplit 4 r).2).1
    ++ (chunkSplit 1 (chunkSplit 2 (chunkSplit 4 r).2).2).1

/-- The full chunk decomposition claimed by the spec for one `write` call:
maximal word-sized chunks, then at most one 4-, 2- and 1-byte chunk. -/
def chunksSpec (w : Width) (bytes : List Byte) : List (List Byte) :=
  wordChunks w bytes ++ tailChunks (wordRest w bytes)

/-- The sizes of the tail chunks produced from a remainder of `r` bytes
(`r < 8`): at most one 4, one 2 and one 1, in that order. -/
def tailSizes (r : Nat) : List Nat :=
  (if 4 ≤ r then [4] else []) ++ (if 2 ≤ r % 4 then [2] else [])
    ++ (if r % 4 % 2 = 1 then [1] else [])

/-! ### Basic facts about the widths and primitive operations -/

theorem Width.wordBytes_pos (w : Width) : 0 < w.wordBytes := by
  cases w <;> decide

theorem Width.bits_eq_eight_mul (w : Width) : w.bits = 8 * w.wordBytes := by
  cases w <;> decide

theorem Width.two_pow_bits_pos (w : Width) : 0 < 2 ^ w.bits :=
  Nat.pos_pow_of_pos _ (by norm_num)

theorem add_to_hash_lt (w : Width) (a i : Nat) :
    FxHasher.add_to_hash w a i < 2 ^ w.bits :=
  Nat.mod_lt _ w.two_pow_bits_pos

theorem fromNeBytes_lt : ∀ l : List Byte, fromNeBytes l < 2 ^ (8 * l.length) := by
  intro l
  induction l with
  | nil => simp [fromNeBytes]
  | cons b rest ih =>
    have hb : b.val < 256 := b.isLt
    have h2 : 2 ^ (8 * (b :: rest).length) = 256 * 2 ^ (8 * rest.length) := by
      rw [List.length_cons, Nat.mul_add, Nat.mul_one, Nat.add_comm, pow_add]
      norm_num
    rw [fromNeBytes, h2]
    omega

/-! ### The loop combinator: fuel adequacy and unfolding -/

theorem loopChunks_congr {α : Type} {wb : Nat} (hwb : 0 < wb) (step : α → List Byte → α) :
    ∀ f g acc (bytes : List Byte), bytes.length ≤ f → bytes.length ≤ g →
      loopChunks wb step f acc bytes = loopChunks wb step g acc bytes := by
  intro f
  induction f with
  | zero =>
    intro g acc bytes hf hg
    have hb : bytes = [] := List.eq_nil_of_length_eq_zero (Nat.le_zero.mp hf)
    subst hb
    cases g with
    | zero => rfl
    | succ g => simp [loopChunks, take_first_chunk, hwb]
  | succ f ih =>
    intro g acc bytes hf hg
    cases g with
    | zero =>
      have hb : bytes = [] := List.eq_nil_of_length_eq_zero (Nat.le_zero.mp hg)
      subst hb
      simp [loopChunks, take_first_chunk, hwb]
    | succ g =>
      show (match take_first_chunk wb bytes with
            | none => (acc, bytes)
            | some (c, rest) => loopChunks wb step f (step acc c) rest)
          = (match take_first_chunk wb bytes with
            | none => (acc, bytes)
            | some (c, rest) => loopChunks wb step g (step acc c) rest)
      rw [take_first_chunk]
      by_cases hlen : bytes.length < wb
      · rw [if_pos hlen]
      · rw [if_neg hlen]
        show loopChunks wb step f (step acc (bytes.take wb)) (bytes.drop wb)
            = loopChunks wb step g (step acc (bytes.take wb)) (bytes.drop wb)
        apply ih <;> (simp only [List.length_drop]; omega)

theorem loopChunks_unfold {α : Type} {wb : Nat} (hwb : 0 < wb) (step : α → List Byte → α)
    (acc : α) (bytes : List Byte) :
    loopChunks wb step bytes.length acc bytes
      = match take_first_chunk wb bytes with
        | none => (acc, bytes)
        | some (c, rest) => loopChunks wb step rest.length (step acc c) rest := by
  cases hb : bytes with
  | nil =>
    simp [loopChunks, take_first_chunk, hwb]
  | cons x xs =>
    show (match take_first_chunk wb (x :: xs) with
          | none => (acc, x :: xs)
          | some (c, rest) => loopChunks wb step xs.length (step acc c) rest)
        = _
    rw [take_first_chunk]
    by_cases hlen : (x :: xs).length < wb
    · rw [if_pos hlen]
    · rw [if_neg hlen]
      show loopChunks wb step xs.length (step acc ((x :: xs).take wb)) ((x :: xs).drop wb)
          = loopChunks wb step ((x :: xs).drop wb).length
              (step acc ((x :: xs).take wb)) ((x :: xs).drop wb)
      apply loopChunks_congr hwb
      · simp only [List.length_drop, List.length_cons]; omega
      · exact Nat.le_refl _

theorem loopChunks_acc_append {wb : Nat} :
    ∀ (f : Nat) (l0 : List (List Byte)) (bytes : List Byte),
      loopChunks wb (fun l c => l ++ [c]) f l0 bytes
        = (l0 ++ (loopChunks wb (fun l c => l ++ [c]) f [] bytes).1,
           (loopChunks wb (fun l c => l ++ [c]) f [] bytes).2) := by
  intro f
  induction f with
  | zero => intro l0 bytes; simp [loopChunks]
  | succ f ih =>
    intro l0 bytes
    show (match take_first_chunk wb bytes with
          | none => (l0, bytes)
          | some (c, rest) => loopChunks wb (fun l c => l ++ [c]) f (l0 ++ [c]) rest)
        = _
    cases hc : take_first_chunk wb bytes with
    | none =>
      simp only [loopChunks, hc, List.append_nil]
    | some p =>
      obtain ⟨c, rest⟩ := p
      simp only [loopChunks, hc, List.nil_append]
      rw [ih (l0 ++ [c]) rest, ih [c] rest]
      simp

theorem loopChunks_as_fold {α : Type} {wb : Nat} (step : α → List Byte → α) :
    ∀ (f : Nat) (acc : α) (bytes : List Byte),
      loopChunks wb step f acc bytes
        = ((loopChunks wb (fun l c => l ++ [c]) f [] bytes).1.foldl step acc,
           (loopChunks wb (fun l c => l ++ [c]) f [] bytes).2) := by
  intro f
  induction f with
  | zero => intro acc bytes; simp [loopChunks]
  | succ f ih =>
    intro acc bytes
    show (match take_first_chunk wb bytes with
          | none => (acc, bytes)
          | some (c, rest) => loopChunks wb step f (step acc c) rest)
        = _
    cases hc : take_first_chunk wb bytes with
    | none =>
      simp only [loopChunks, hc, List.foldl_nil]
    | some p =>
      obtain ⟨c, rest⟩ := p
      simp only [loopChunks, hc, List.nil_append]
      rw [ih (step acc c) rest, loopChunks_acc_append f [c] rest]
      simp

theorem chunksRest_spec {wb : Nat} (hwb : 0 < wb) :
    ∀ (f : Nat) (bytes : List Byte), bytes.length ≤ f →
      (loopChunks wb (fun l c => l ++ [c]) f [] bytes).1.flatten
          ++ (loopChunks wb (fun l c => l ++ [c]) f [] bytes).2 = bytes
      ∧ (loopChunks wb (fun l c => l ++ [c]) f [] bytes).2.length < wb
      ∧ ∀ c ∈ (loopChunks wb (fun l c => l ++ [c]) f [] bytes).1, c.length = wb := by
  intro f
  induction f with
  | zero =>
    intro bytes hf
    have hb : bytes = [] := List.eq_nil_of_length_eq_zero (Nat.le_zero.mp hf)
    subst hb
    simp [loopChunks, hwb]
  | succ f ih =>
    intro bytes hf
    have hunf : loopChunks wb (fun l c => l ++ [c]) (f + 1) [] bytes
        = match take_first_chunk wb bytes with
          | none => (([] : List (List Byte)), bytes)
          | some (c, rest) => loopChunks wb (fun l c => l ++ [c]) f [c] rest := by
      show (match take_first_chunk wb bytes with
            | none => (([] : List (List Byte)), bytes)
            | some (c, rest) => loopChunks wb (fun l c => l ++ [c]) f ([] ++ [c]) rest)
          = _
      simp only [List.nil_append]
    rw [hunf, take_first_chunk]
    by_cases hlen : bytes.length < wb
    · rw [if_pos hlen]
      exact ⟨by simp, hlen, by simp⟩
    · rw [if_neg hlen]
      have hsome : (match some (bytes.take wb, bytes.drop wb) with
            | none => (([] : List (List Byte)), bytes)
            | some (c, rest) => loopChunks wb (fun l c => l ++ [c]) f [c] rest)
          = loopChunks wb (fun l c => l ++ [c]) f [bytes.take wb] (bytes.drop wb) := rfl
      rw [hsome, loopChunks_acc_append f [bytes.take wb] (bytes.drop wb)]
      have hrest : (bytes.drop wb).length ≤ f := by
        simp only [List.length_drop]; omega
      obtain ⟨ihj, ihr, ihm⟩ := ih (bytes.drop wb) hrest
      refine ⟨?_, by simpa using ihr, ?_⟩
      · show ([bytes.take wb]
            ++ (loopChunks wb (fun l c => l ++ [c]) f [] (bytes.drop wb)).1).flatten
            ++ (loopChunks wb (fun l c => l ++ [c]) f [] (bytes.drop wb)).2 = bytes
        rw [List.flatten_append, List.flatten_singleton, List.append_assoc, ihj,
          List.take_append_drop]
      · intro c hc
        simp only [List.mem_append, List.mem_singleton] at hc
        rcases hc with hc | hc
        · subst hc
          simp only [List.length_take]
          omega
        · exact ihm c hc

/-! ### The word loop, as a fold over its chunk list -/

theorem writeWords_eq_fold (w : Width) (h : Nat) (bytes : List Byte) :
    FxHasher.writeWords w h bytes
      = ((wordChunks w bytes).foldl (mixStep w) h, wordRest w bytes) := by
  rw [FxHasher.writeWords, loopChunks_as_fold (mixStep w) bytes.length h bytes]
  rfl

theorem wordChunks_spec (w : Width) (bytes : List Byte) :
    (wordChunks w bytes).flatten ++ wordRest w bytes = bytes
    ∧ (wordRest w bytes).length < w.wordBytes
    ∧ ∀ c ∈ wordChunks w bytes, c.length = w.wordBytes :=
  chunksRest_spec w.wordBytes_pos bytes.length bytes (Nat.le_refl _)

theorem wordChunks_count (w : Width) (bytes : List Byte) :
    (wordChunks w bytes).length = bytes.length / w.wordBytes
    ∧ (wordRest w bytes).length = bytes.length % w.wordBytes := by
  obtain ⟨hj, hr, hm⟩ := wordChunks_spec w bytes
  have hlen : (wordChunks w bytes).length * w.wordBytes + (wordRest w bytes).length
      = bytes.length := by
    have := congrArg List.length hj
    simp only [List.length_append, List.length_flatten] at this
    rw [← this]
    congr 1
    have hrep : (wordChunks w bytes).map List.length
        = List.replicate ((wordChunks w bytes).map List.length).length w.wordBytes := by
      apply List.eq_replicate_of_mem
      intro x hx
      obtain ⟨c, hc, rfl⟩ := List.mem_map.mp hx
      exact hm c hc
    rw [hrep, List.sum_replicate, smul_eq_mul, List.length_map]
  cases w with
  | w32 =>
    simp only [Width.wordBytes] at hlen hr ⊢
    omega
  | w64 =>
    simp only [Width.wordBytes] at hlen hr ⊢
    omega

/-! ### The tail branches, as folds over their chunk lists -/

theorem writeChunkStep_as_fold (w : Width) (n : Nat) (p : Nat × List Byte) :
    FxHasher.writeChunkStep w n p
      = ((chunkSplit n p.2).1.foldl (mixStep w) p.1, (chunkSplit n p.2).2) := by
  rw [FxHasher.writeChunkStep, chunkSplit]
  cases take_first_chunk n p.2 with
  | none => rfl
  | some q => rfl

theorem chunkSplit_flatten (n : Nat) (r : List Byte) :
    (chunkSplit n r).1.flatten ++ (chunkSplit n r).2 = r := by
  rw [chunkSplit, take_first_chunk]
  by_cases hlen : r.length < n
  · rw [if_pos hlen]; rfl
  · rw [if_neg hlen]
    show ([r.take n] : List (List Byte)).flatten ++ r.drop n = r
    simp [List.take_append_drop]

theorem chunkSplit_rest_length (n : Nat) (r : List Byte) :
    (chunkSplit n r).2.length = if r.length < n then r.length else r.length - n := by
  rw [chunkSplit, take_first_chunk]
  by_cases hlen : r.length < n
  · rw [if_pos hlen, if_pos hlen]
  · rw [if_neg hlen, if_neg hlen]
    show (r.drop n).length = r.length - n
    exact List.length_drop n r

theorem chunkSplit_sizes (n : Nat) (r : List Byte) :
    (chunkSplit n r).1.map List.length = if n ≤ r.length then [n] else [] := by
  rw [chunkSplit, take_first_chunk]
  by_cases hlen : r.length < n
  · rw [if_pos hlen, if_neg (by omega)]
    rfl
  · rw [if_neg hlen, if_pos (by omega)]
    show [(r.take n).length] = [n]
    simp only [List.length_take]
    congr 1
    omega

theorem write_eq_fold (w : Width) (h : Nat) (bytes : List Byte) :
    FxHasher.write w h bytes = (chunksSpec w bytes).foldl (mixStep w) h := by
  rw [FxHasher.write, writeWords_eq_fold, writeChunkStep_as_fold,
    writeChunkStep_as_fold, writeChunkStep_as_fold, chunksSpec, tailChunks]
  simp [List.foldl_append]

theorem write_final_rest (w : Width) (bytes : List Byte) :
    (chunkSplit 1 (chunkSplit 2 (chunkSplit 4 (wordRest w bytes)).2).2).2 = [] := by
  obtain ⟨-, hr, -⟩ := wordChunks_spec w bytes
  have hwb : w.wordBytes ≤ 8 := by cases w <;> decide
  rw [← List.length_eq_zero]
  rw [chunkSplit_rest_length, chunkSplit_rest_length, chunkSplit_rest_length]
  split_ifs <;> omega

theorem chunksSpec_flatten (w : Width) (bytes : List Byte) :
    (chunksSpec w bytes).flatten = bytes := by
  obtain ⟨hj, -, -⟩ := wordChunks_spec w bytes
  have h4 := chunkSplit_flatten 4 (wordRest w bytes)
  have h2 := chunkSplit_flatten 2 (chunkSplit 4 (wordRest w bytes)).2
  have h1 := chunkSplit_flatten 1 (chunkSplit 2 (chunkSplit 4 (wordRest w bytes)).2).2
  have h0 := write_final_rest w bytes
  rw [chunksSpec, tailChunks, List.flatten_append, List.flatten_append,
    List.flatten_append]
  rw [h0, List.append_nil] at h1
  rw [h1, List.append_assoc, h2, h4, hj]

theorem tailChunks_sizes (r : List Byte) (hr : r.length < 8) :
    (tailChunks r).map List.length = tailSizes r.length := by
  have h4 : (chunkSplit 4 r).2.length = r.length % 4 := by
    rw [chunkSplit_rest_length]
    split_ifs <;> omega
  have h2 : (chunkSplit 2 (chunkSplit 4 r).2).2.length = r.length % 4 % 2 := by
    rw [chunkSplit_rest_length, h4]
    split_ifs <;> omega
  rw [tailChunks, tailSizes, List.map_append, List.map_append,
    chunkSplit_sizes, chunkSplit_sizes, chunkSplit_sizes, h4, h2]
  have hx : 1 ≤ r.length % 4 % 2 ↔ r.length % 4 % 2 = 1 := by omega
  simp only [hx, List.append_assoc]

/-- Claim C2: a single `write` call folds its byte slice in the exact
decomposition and order given by `chunksSpec`: maximal native-word chunks
first, then at most one 4-byte, one 2-byte and one 1-byte chunk, in descending
size order, each read as a native-endian integer and folded by the mixing
step; the chunks concatenate back to the input, so every byte is consumed
exactly once, none skipped or double-counted. -/
theorem write_chunk_decomposition (w : Width) (h : Nat) (bytes : List Byte) :
    FxHasher.write w h bytes = (chunksSpec w bytes).foldl (mixStep w) h
    ∧ (chunksSpec w bytes).flatten = bytes
    ∧ (chunksSpec w bytes).map List.length
        = List.replicate (bytes.length / w.wordBytes) w.wordBytes
          ++ tailSizes (bytes.length % w.wordBytes) := by
  refine ⟨write_eq_fold w h bytes, chunksSpec_flatten w bytes, ?_⟩
  obtain ⟨hcount, hrest⟩ := wordChunks_count w bytes
  obtain ⟨-, hr, hm⟩ := wordChunks_spec w bytes
  rw [chunksSpec, List.map_append]
  congr 1
  · have hrep : (wordChunks w bytes).map List.length
        = List.replicate ((wordChunks w bytes).map List.length).length w.wordBytes := by
      apply List.eq_replicate_of_mem
      intro x hx
      obtain ⟨c, hc, rfl⟩ := List.mem_map.mp hx
      exact hm c hc
    rw [hrep, List.length_map, hcount]
  · have h8 : (wordRest w bytes).length < 8 :=
      Nat.lt_of_lt_of_le hr (by cases w <;> decide)
    rw [tailChunks_sizes (wordRest w bytes) h8, hrest]

/-! ### Specialized unfoldings of the word loop -/

theorem loopChunks_stop {α : Type} {wb : Nat} (hwb : 0 < wb) (step : α → List Byte → α)
    (acc : α) (bytes : List Byte) (h : bytes.length < wb) :
    loopChunks wb step bytes.length acc bytes = (acc, bytes) := by
  rw [loopChunks_unfold hwb, take_first_chunk, if_pos h]

theorem loopChunks_go {α : Type} {wb : Nat} (hwb : 0 < wb) (step : α → List Byte → α)
    (acc : α) (bytes : List Byte) (h : ¬ bytes.length < wb) :
    loopChunks wb step bytes.length acc bytes
      = loopChunks wb step (bytes.drop wb).length (step acc (bytes.take wb))
          (bytes.drop wb) := by
  rw [loopChunks_unfold hwb, take_first_chunk, if_neg h]

/-- Claim C6: `write` with an empty byte slice leaves the accumulator
unchanged for every prior hasher state, and a zero-seeded hasher that has
received zero bytes yields digest 0 from `finish`. -/
theorem write_empty_input (w : Width) (h : Nat) :
    FxHasher.write w h [] = h ∧ FxHasher.finish FxHasher.default = 0 := by
  exact ⟨by cases w <;> rfl, rfl⟩

/-! ### The rotation as plain arithmetic -/

theorem rotateLeft_eq_arith (bits r a : Nat) (hr : r ≤ bits) (ha : a < 2 ^ bits) :
    rotateLeft bits a r = a % 2 ^ (bits - r) * 2 ^ r + a / 2 ^ (bits - r) := by
  have hpow : 2 ^ (bits - r) * 2 ^ r = 2 ^ bits := by
    rw [← pow_add]
    congr 1
    omega
  have hdiv : a / 2 ^ (bits - r) < 2 ^ r := by
    apply (Nat.div_lt_iff_lt_mul (Nat.pos_pow_of_pos _ (by norm_num))).mpr
    calc a < 2 ^ bits := ha
    _ = 2 ^ r * 2 ^ (bits - r) := by rw [Nat.mul_comm, hpow]
  rw [rotateLeft, Nat.shiftLeft_eq, Nat.shiftRight_eq_div_pow]
  have h1 : a * 2 ^ r % 2 ^ bits = a % 2 ^ (bits - r) * 2 ^ r := by
    rw [← hpow, Nat.mul_mod_mul_right]
  rw [h1, Nat.mul_comm (a % 2 ^ (bits - r)) (2 ^ r), ← Nat.mul_add_lt_is_or hdiv,
    Nat.mul_comm (2 ^ r) (a % 2 ^ (bits - r))]

/-- Claim C1: one application of the mixing step to accumulator `a` and
incoming word `b` yields `rotate_left(a, 5) XOR b` multiplied, wrapping modulo
`2 ^ w`, by the constant `K`, which is `0x9e3779b9` on 32-bit targets and
`0x517cc1b727220a95` on 64-bit targets (the rotation is written out
arithmetically: low `w - 5` bits shifted up, top 5 bits wrapped to the
bottom). -/
theorem add_to_hash_formula (w : Width) (a b : Nat)
    (ha : a < 2 ^ w.bits) (hb : b < 2 ^ w.bits) :
    FxHasher.add_to_hash w a b
      = ((a % 2 ^ (w.bits - 5) * 2 ^ 5 + a / 2 ^ (w.bits - 5)) ^^^ b) * w.K % 2 ^ w.bits
    ∧ Width.K Width.w32 = 0x9e3779b9 ∧ Width.K Width.w64 = 0x517cc1b727220a95 := by
  refine ⟨?_, rfl, rfl⟩
  rw [FxHasher.add_to_hash, rotateLeft_eq_arith w.bits 5 a (by cases w <;> decide) ha]

/-- Witness for C1 at a concrete accumulator and input on the 64-bit width. -/
theorem add_to_hash_formula_witness :
    FxHasher.add_to_hash Width.w64 123 456
      = ((123 % 2 ^ (Width.w64.bits - 5) * 2 ^ 5 + 123 / 2 ^ (Width.w64.bits - 5)) ^^^ 456)
          * Width.w64.K % 2 ^ Width.w64.bits
    ∧ Width.K Width.w32 = 0x9e3779b9 ∧ Width.K Width.w64 = 0x517cc1b727220a95 :=
  add_to_hash_formula Width.w64 123 456 (by decide) (by decide)

/-! ### Native-endian encodings of fixed-width values -/

theorem toNeBytes_length (n : Nat) : ∀ v, (toNeBytes n v).length = n := by
  induction n with
  | zero => intro v; rfl
  | succ n ih => intro v; simp [toNeBytes, ih]

theorem fromNeBytes_toNeBytes (n : Nat) :
    ∀ v, fromNeBytes (toNeBytes n v) = v % 2 ^ (8 * n) := by
  induction n with
  | zero => intro v; simp [toNeBytes, fromNeBytes, Nat.mod_one]
  | succ n ih =>
    intro v
    rw [toNeBytes, fromNeBytes, ih]
    have h : 2 ^ (8 * (n + 1)) = 256 * 2 ^ (8 * n) := by
      rw [Nat.mul_add, Nat.mul_one, Nat.add_comm, pow_add]
      norm_num
    rw [h, Nat.mod_mul]

theorem toNeBytes_add (m n : Nat) :
    ∀ v, toNeBytes (m + n) v = toNeBytes m v ++ toNeBytes n (v / 2 ^ (8 * m)) := by
  induction m with
  | zero =>
    intro v
    simp [toNeBytes]
  | succ m ih =>
    intro v
    have hmn : m + 1 + n = (m + n) + 1 := by omega
    rw [hmn, toNeBytes, toNeBytes, ih (v / 256)]
    simp only [List.cons_append]
    congr 2
    rw [Nat.div_div_eq_div_mul]
    congr 1
    rw [Nat.mul_add, Nat.mul_one, pow_add]
    norm_num [Nat.mul_comm]

/-! ### Evaluating `write` on short buffers -/

theorem wordChunksRest_short (w : Width) (bytes : List Byte)
    (hlen : bytes.length < w.wordBytes) :
    wordChunks w bytes = [] ∧ wordRest w bytes = bytes := by
  have h := loopChunks_stop w.wordBytes_pos (fun l c => l ++ [c]) [] bytes hlen
  exact ⟨congrArg Prod.fst h, congrArg Prod.snd h⟩

theorem wordChunksRest_exact (w : Width) (bytes : List Byte)
    (hlen : bytes.length = w.wordBytes) :
    wordChunks w bytes = [bytes] ∧ wordRest w bytes = [] := by
  have htake : bytes.take w.wordBytes = bytes := List.take_of_length_le (by omega)
  have hdrop : bytes.drop w.wordBytes = [] := List.drop_of_length_le (by omega)
  have h : loopChunks w.wordBytes (fun l c => l ++ [c]) bytes.length [] bytes
      = ([bytes], []) := by
    rw [loopChunks_go w.wordBytes_pos _ _ _ (by omega), htake, hdrop]
    rfl
  exact ⟨congrArg Prod.fst h, congrArg Prod.snd h⟩

theorem tailChunks_whole (bytes : List Byte)
    (hl : bytes.length = 1 ∨ bytes.length = 2 ∨ bytes.length = 4) :
    tailChunks bytes = [bytes] := by
  rcases hl with hl | hl | hl
  · have e4 : chunkSplit 4 bytes = ([], bytes) := by
      rw [chunkSplit, take_first_chunk, if_pos (by omega)]
    have e2 : chunkSplit 2 bytes = ([], bytes) := by
      rw [chunkSplit, take_first_chunk, if_pos (by omega)]
    have e1 : chunkSplit 1 bytes = ([bytes], []) := by
      rw [chunkSplit, take_first_chunk, if_neg (by omega),
        List.take_of_length_le (by omega), List.drop_of_length_le (by omega)]
    simp [tailChunks, e4, e2, e1]
  · have e4 : chunkSplit 4 bytes = ([], bytes) := by
      rw [chunkSplit, take_first_chunk, if_pos (by omega)]
    have e2 : chunkSplit 2 bytes = ([bytes], []) := by
      rw [chunkSplit, take_first_chunk, if_neg (by omega),
        List.take_of_length_le (by omega), List.drop_of_length_le (by omega)]
    have e1 : chunkSplit 1 ([] : List Byte) = ([], []) := by
      rw [chunkSplit, take_first_chunk, if_pos (by simp)]
    simp [tailChunks, e4, e2, e1]
  · have e4 : chunkSplit 4 bytes = ([bytes], []) := by
      rw [chunkSplit, take_first_chunk, if_neg (by omega),
        List.take_of_length_le (by omega), List.drop_of_length_le (by omega)]
    have e2 : chunkSplit 2 ([] : List Byte) = ([], []) := by
      rw [chunkSplit, take_first_chunk, if_pos (by simp)]
    have e1 : chunkSplit 1 ([] : List Byte) = ([], []) := by
      rw [chunkSplit, take_first_chunk, if_pos (by simp)]
    simp [tailChunks, e4, e2, e1]

theorem write_single_word (w : Width) (h : Nat) (bytes : List Byte)
    (hlen : bytes.length = w.wordBytes) :
    FxHasher.write w h bytes = mixStep w h bytes := by
  obtain ⟨hc, hr⟩ := wordChunksRest_exact w bytes hlen
  have e4 : chunkSplit 4 ([] : List Byte) = ([], []) := by
    rw [chunkSplit, take_first_chunk, if_pos (by simp)]
  have e2 : chunkSplit 2 ([] : List Byte) = ([], []) := by
    rw [chunkSplit, take_first_chunk, if_pos (by simp)]
  have e1 : chunkSplit 1 ([] : List Byte) = ([], []) := by
    rw [chunkSplit, take_first_chunk, if_pos (by simp)]
  rw [write_eq_fold, chunksSpec, hc, hr, tailChunks]
  simp [e4, e2, e1, mixStep]

theorem write_small_tail (w : Width) (h : Nat) (bytes : List Byte)
    (hl : bytes.length = 1 ∨ bytes.length = 2 ∨ bytes.length = 4)
    (hlt : bytes.length < w.wordBytes) :
    FxHasher.write w h bytes = mixStep w h bytes := by
  obtain ⟨hc, hr⟩ := wordChunksRest_short w bytes hlt
  rw [write_eq_fold, chunksSpec, hc, hr, tailChunks_whole bytes hl]
  rfl

/-! ### Splitting a `write` at a word-aligned boundary -/

theorem loopChunks_append_aligned {α : Type} {wb : Nat} (hwb : 0 < wb)
    (step : α → List Byte → α) :
    ∀ (s1 s2 : List Byte) (acc : α), s1.length % wb = 0 →
      loopChunks wb step (s1 ++ s2).length acc (s1 ++ s2)
        = loopChunks wb step s2.length
            (loopChunks wb step s1.length acc s1).1 s2 := by
  suffices H : ∀ (n : Nat) (s1 s2 : List Byte) (acc : α), s1.length = n →
      s1.length % wb = 0 →
      loopChunks wb step (s1 ++ s2).length acc (s1 ++ s2)
        = loopChunks wb step s2.length
            (loopChunks wb step s1.length acc s1).1 s2 by
    intro s1 s2 acc hmod
    exact H s1.length s1 s2 acc rfl hmod
  intro n
  induction n using Nat.strong_induction_on with
  | _ n ih =>
    intro s1 s2 acc hn hmod
    by_cases h0 : s1.length = 0
    · have hnil : s1 = [] := List.eq_nil_of_length_eq_zero h0
      subst hnil
      rfl
    · have hge : wb ≤ s1.length := by
        rcases Nat.lt_or_ge s1.length wb with hlt | hge
        · rw [Nat.mod_eq_of_lt hlt] at hmod
          omega
        · exact hge
      have hns : ¬ (s1 ++ s2).length < wb := by
        simp only [List.length_append]
        omega
      rw [loopChunks_go hwb step acc (s1 ++ s2) hns,
        List.take_append_of_le_length hge, List.drop_append_of_le_length hge,
        loopChunks_go hwb step acc s1 (by omega)]
      have hlt : (s1.drop wb).length < n := by
        simp only [List.length_drop]
        omega
      have hmod2 : (s1.drop wb).length % wb = 0 := by
        simp only [List.length_drop]
        exact Nat.mod_eq_zero_of_dvd
          (Nat.dvd_sub' (Nat.dvd_of_mod_eq_zero hmod) (Nat.dvd_refl wb))
      exact ih (s1.drop wb).length hlt (s1.drop wb) s2 (step acc (s1.take wb)) rfl hmod2

theorem writeWords_aligned_nil_rest (w : Width) (s1 : List Byte)
    (hmod : s1.length % w.wordBytes = 0) :
    wordRest w s1 = [] := by
  obtain ⟨hj, hr, hm⟩ := wordChunks_spec w s1
  obtain ⟨-, hrest⟩ := wordChunks_count w s1
  rw [← List.length_eq_zero, hrest]
  cases w with
  | w32 => simp only [Width.wordBytes] at hmod ⊢; omega
  | w64 => simp only [Width.wordBytes] at hmod ⊢; omega

theorem write_append_aligned (w : Width) (h : Nat) (s1 s2 : List Byte)
    (hmod : s1.length % w.wordBytes = 0) :
    FxHasher.write w h (s1 ++ s2) = FxHasher.write w (FxHasher.write w h s1) s2 := by
  have hrest : wordRest w s1 = [] := writeWords_aligned_nil_rest w s1 hmod
  have hw1 : FxHasher.write w h s1 = (FxHasher.writeWords w h s1).1 := by
    rw [writeWords_eq_fold, write_eq_fold, chunksSpec, hrest, tailChunks]
    have e4 : chunkSplit 4 ([] : List Byte) = ([], []) := by
      rw [chunkSplit, take_first_chunk, if_pos (by simp)]
    have e2 : chunkSplit 2 ([] : List Byte) = ([], []) := by
      rw [chunkSplit, take_first_chunk, if_pos (by simp)]
    have e1 : chunkSplit 1 ([] : List Byte) = ([], []) := by
      rw [chunkSplit, take_first_chunk, if_pos (by simp)]
    simp [e4, e2, e1]
  have hwords : FxHasher.writeWords w h (s1 ++ s2)
      = loopChunks w.wordBytes (mixStep w) s2.length (FxHasher.writeWords w h s1).1 s2 := by
    rw [FxHasher.writeWords]
    exact loopChunks_append_aligned w.wordBytes_pos (mixStep w) s1 s2 h hmod
  rw [FxHasher.write, hwords, hw1]
  rfl

/-- Counterexample to claim C3 as stated: splitting the two-byte input
`[1, 0]` into the sub-slices `[1]` and `[0]` changes the digest on the 64-bit
width with the zero seed, because the split tail is folded as two 1-byte
chunks instead of one 2-byte chunk. -/
theorem write_split_counterexample :
    FxHasher.finish (FxHasher.writeList Width.w64 FxHasher.default [[1], [0]])
      ≠ FxHasher.finish (FxHasher.write Width.w64 FxHasher.default [1, 0]) := by
  decide

/-- Claim C3 (amended): feeding consecutive sub-slices through successive
`write` calls yields the same state and digest as a single `write` of their
concatenation whenever every sub-slice except possibly the last has length a
multiple of the native word size; boundary-insensitivity does not hold for
arbitrary splits (see the counterexample). -/
theorem write_split_aligned (w : Width) (h : Nat) (slices : List (List Byte))
    (ha : ∀ s ∈ slices.dropLast, s.length % w.wordBytes = 0) :
    FxHasher.writeList w h slices = FxHasher.write w h slices.flatten
    ∧ FxHasher.finish (FxHasher.writeList w h slices)
        = FxHasher.finish (FxHasher.write w h slices.flatten) := by
  suffices hs : FxHasher.writeList w h slices = FxHasher.write w h slices.flatten by
    exact ⟨hs, by rw [hs]⟩
  induction slices generalizing h with
  | nil =>
    show h = FxHasher.write w h []
    exact ((write_empty_input w h).1).symm
  | cons s rest ih =>
    cases rest with
    | nil =>
      show FxHasher.write w h s = FxHasher.write w h ([s] : List (List Byte)).flatten
      rw [List.flatten_singleton]
    | cons s2 rest2 =>
      have hmem : s ∈ (s :: s2 :: rest2).dropLast := by
        rw [List.dropLast_cons₂]
        exact List.mem_cons_self s _
      have hs1 : s.length % w.wordBytes = 0 := ha s hmem
      have ha2 : ∀ t ∈ (s2 :: rest2).dropLast, t.length % w.wordBytes = 0 := by
        intro t ht
        apply ha
        rw [List.dropLast_cons₂]
        exact List.mem_cons_of_mem s ht
      show FxHasher.writeList w (FxHasher.write w h s) (s2 :: rest2)
          = FxHasher.write w h (s ++ (s2 :: rest2).flatten)
      rw [write_append_aligned w h s (s2 :: rest2).flatten hs1]
      exact ih (FxHasher.write w h s) ha2

/-- Witness for the amended C3: a word-aligned split of a ten-byte input on
the 64-bit width gives the same state and digest as the unsplit write. -/
theorem write_split_aligned_witness :
    FxHasher.writeList Width.w64 0 [[1, 2, 3, 4, 5, 6, 7, 8], [9, 10]]
      = FxHasher.write Width.w64 0
          ([[1, 2, 3, 4, 5, 6, 7, 8], [9, 10]] : List (List Byte)).flatten
    ∧ FxHasher.finish (FxHasher.writeList Width.w64 0 [[1, 2, 3, 4, 5, 6, 7, 8], [9, 10]])
        = FxHasher.finish (FxHasher.write Width.w64 0
            ([[1, 2, 3, 4, 5, 6, 7, 8], [9, 10]] : List (List Byte)).flatten) :=
  write_split_aligned Width.w64 0 [[1, 2, 3, 4, 5, 6, 7, 8], [9, 10]] (by decide)

/-- Counterexample to claim C5 as stated: on the 32-bit width `write_u64` does
not fold the value in one mixing step; hashing `1u64` from the zero state
differs from a single mixing step on the value 1 (matching the crate test,
where `hash(1u64)` differs from `hash(1u32)` on 32-bit targets). -/
theorem write_u64_single_mix_counterexample :
    FxHasher.write_u64 Width.w32 0 1 ≠ FxHasher.add_to_hash Width.w32 0 1 := by
  decide

/-- Claim C5 (amended): every `write_uN` leaves the hasher exactly as `write`
on the native-endian bytes of the value (each is the default method of Rust
core, defined as that call), and folds the value in one mixing step whenever
the value width is
at most the native word width — `u8`/`u16`/`u32`/`usize` on both widths and
`u64` on the 64-bit width; on the 32-bit width `write_u64` folds in two
mixing steps, low word first. -/
theorem write_fixed_width (w : Width) (h v : Nat) :
    FxHasher.write_u8 w h v = FxHasher.write w h (toNeBytes 1 v)
    ∧ FxHasher.write_u16 w h v = FxHasher.write w h (toNeBytes 2 v)
    ∧ FxHasher.write_u32 w h v = FxHasher.write w h (toNeBytes 4 v)
    ∧ FxHasher.write_u64 w h v = FxHasher.write w h (toNeBytes 8 v)
    ∧ FxHasher.write_usize w h v = FxHasher.write w h (toNeBytes w.wordBytes v)
    ∧ (v < 2 ^ 8 → FxHasher.write_u8 w h v = FxHasher.add_to_hash w h v)
    ∧ (v < 2 ^ 16 → FxHasher.write_u16 w h v = FxHasher.add_to_hash w h v)
    ∧ (v < 2 ^ 32 → FxHasher.write_u32 w h v = FxHasher.add_to_hash w h v)
    ∧ (v < 2 ^ 64 → FxHasher.write_u64 Width.w64 h v
        = FxHasher.add_to_hash Width.w64 h v)
    ∧ (v < 2 ^ w.bits → FxHasher.write_usize w h v = FxHasher.add_to_hash w h v)
    ∧ (v < 2 ^ 64 → FxHasher.write_u64 Width.w32 h v
        = FxHasher.add_to_hash Width.w32
            (FxHasher.add_to_hash Width.w32 h (v % 2 ^ 32)) (v / 2 ^ 32)) := by
  refine ⟨rfl, rfl, rfl, rfl, rfl, ?_, ?_, ?_, ?_, ?_, ?_⟩
  · intro hv
    rw [FxHasher.write_u8,
      write_small_tail w h _ (Or.inl (toNeBytes_length 1 v))
        (by rw [toNeBytes_length]; cases w <;> decide),
      mixStep, fromNeBytes_toNeBytes]
    have e : (2 : Nat) ^ (8 * 1) = 2 ^ 8 := by norm_num
    rw [e, Nat.mod_eq_of_lt hv]
  · intro hv
    rw [FxHasher.write_u16,
      write_small_tail w h _ (Or.inr (Or.inl (toNeBytes_length 2 v)))
        (by rw [toNeBytes_length]; cases w <;> decide),
      mixStep, fromNeBytes_toNeBytes]
    have e : (2 : Nat) ^ (8 * 2) = 2 ^ 16 := by norm_num
    rw [e, Nat.mod_eq_of_lt hv]
  · intro hv
    have e : (2 : Nat) ^ (8 * 4) = 2 ^ 32 := by norm_num
    cases w with
    | w32 =>
      rw [FxHasher.write_u32,
        write_single_word Width.w32 h _ (by rw [toNeBytes_length]; rfl),
        mixStep, fromNeBytes_toNeBytes, e, Nat.mod_eq_of_lt hv]
    | w64 =>
      rw [FxHasher.write_u32,
        write_small_tail Width.w64 h _ (Or.inr (Or.inr (toNeBytes_length 4 v)))
          (by rw [toNeBytes_length]; decide),
        mixStep, fromNeBytes_toNeBytes, e, Nat.mod_eq_of_lt hv]
  · intro hv
    have e : (2 : Nat) ^ (8 * 8) = 2 ^ 64 := by norm_num
    rw [FxHasher.write_u64,
      write_single_word Width.w64 h _ (by rw [toNeBytes_length]; rfl),
      mixStep, fromNeBytes_toNeBytes, e, Nat.mod_eq_of_lt hv]
  · intro hv
    rw [FxHasher.write_usize,
      write_single_word w h _ (toNeBytes_length w.wordBytes v),
      mixStep, fromNeBytes_toNeBytes, ← Width.bits_eq_eight_mul, Nat.mod_eq_of_lt hv]
  · intro hv
    have hsplit : toNeBytes 8 v = toNeBytes 4 v ++ toNeBytes 4 (v / 2 ^ 32) := by
      have e : (2 : Nat) ^ (8 * 4) = 2 ^ 32 := by norm_num
      have := toNeBytes_add 4 4 v
      rwa [e] at this
    have e32 : (2 : Nat) ^ (8 * 4) = 2 ^ 32 := by norm_num
    have hdivlt : v / 2 ^ 32 < 2 ^ 32 := by
      apply (Nat.div_lt_iff_lt_mul (by norm_num)).mpr
      calc v < 2 ^ 64 := hv
      _ = 2 ^ 32 * 2 ^ 32 := by norm_num
    rw [FxHasher.write_u64, hsplit,
      write_append_aligned Width.w32 h _ _ (by rw [toNeBytes_length]; rfl),
      write_single_word Width.w32 h _ (by rw [toNeBytes_length]; rfl),
      mixStep, fromNeBytes_toNeBytes, e32,
      write_single_word Width.w32 _ _ (by rw [toNeBytes_length]; rfl),
      mixStep, fromNeBytes_toNeBytes, e32, Nat.mod_eq_of_lt hdivlt]

/-- Witness for the amended C5: concrete single-mix and two-mix evaluations. -/
theorem write_fixed_width_witness :
    FxHasher.write_u8 Width.w64 3 7 = FxHasher.add_to_hash Width.w64 3 7
    ∧ FxHasher.write_u64 Width.w32 0 (2 ^ 40 + 5)
        = FxHasher.add_to_hash Width.w32
            (FxHasher.add_to_hash Width.w32 0 ((2 ^ 40 + 5) % 2 ^ 32))
            ((2 ^ 40 + 5) / 2 ^ 32) :=
  ⟨(write_fixed_width Width.w64 3 7).2.2.2.2.2.1 (by decide),
   (write_fixed_width Width.w32 0 (2 ^ 40 + 5)).2.2.2.2.2.2.2.2.2.2 (by decide)⟩

/-- Claim C4: hashing the single byte value 0 with a zero-seeded hasher yields
digest 0 on both widths, and hashing the byte value 1 yields exactly
5871781006564002453 on the 64-bit width and 2654435769 on the 32-bit width. -/
theorem single_byte_digests :
    FxHasher.finish (FxHasher.write_u8 Width.w64 FxHasher.default 0) = 0
    ∧ FxHasher.finish (FxHasher.write_u8 Width.w32 FxHasher.default 0) = 0
    ∧ FxHasher.finish (FxHasher.write_u8 Width.w64 FxHasher.default 1)
        = 5871781006564002453
    ∧ FxHasher.finish (FxHasher.write_u8 Width.w32 FxHasher.default 1)
        = 2654435769 := by
  decide

/-! ### The checked write never fails -/

theorem take_first_chunk_checked_eq (n : Nat) (s : List Byte) (hn : ¬ s.length < n) :
    take_first_chunk_checked n s = some (some (s.take n), s.drop n) := by
  have hl : (s.take n).length = n := by
    simp only [List.length_take]
    omega
  rw [take_first_chunk_checked, if_neg hn, try_into, if_pos hl]

theorem loopChunksChecked_eq (w : Width) :
    ∀ (fuel h : Nat) (bytes : List Byte),
      loopChunksChecked w w.wordBytes fuel (some h) bytes
        = (some (loopChunks w.wordBytes (mixStep w) fuel h bytes).1,
           (loopChunks w.wordBytes (mixStep w) fuel h bytes).2) := by
  intro fuel
  induction fuel with
  | zero => intro h bytes; rfl
  | succ fuel ih =>
    intro h bytes
    by_cases hlen : bytes.length < w.wordBytes
    · have h1 : take_first_chunk_checked w.wordBytes bytes = none := by
        rw [take_first_chunk_checked, if_pos hlen]
      have h2 : take_first_chunk w.wordBytes bytes = none := by
        rw [take_first_chunk, if_pos hlen]
      simp [loopChunksChecked, loopChunks, h1, h2]
    · have h1 := take_first_chunk_checked_eq w.wordBytes bytes hlen
      have h2 : take_first_chunk w.wordBytes bytes
          = some (bytes.take w.wordBytes, bytes.drop w.wordBytes) := by
        rw [take_first_chunk, if_neg hlen]
      simp only [loopChunksChecked, loopChunks, h1, h2]
      exact ih (mixStep w h (bytes.take w.wordBytes)) (bytes.drop w.wordBytes)

theorem writeChunkStepChecked_eq (w : Width) (n h : Nat) (r : List Byte) :
    FxHasher.writeChunkStepChecked w n (some h, r)
      = (some (FxHasher.writeChunkStep w n (h, r)).1,
         (FxHasher.writeChunkStep w n (h, r)).2) := by
  by_cases hlen : r.length < n
  · have h1 : take_first_chunk_checked n r = none := by
      rw [take_first_chunk_checked, if_pos hlen]
    have h2 : take_first_chunk n r = none := by
      rw [take_first_chunk, if_pos hlen]
    simp [FxHasher.writeChunkStepChecked, FxHasher.writeChunkStep, h1, h2]
  · have h1 := take_first_chunk_checked_eq n r hlen
    have h2 : take_first_chunk n r = some (r.take n, r.drop n) := by
      rw [take_first_chunk, if_neg hlen]
    simp [FxHasher.writeChunkStepChecked, FxHasher.writeChunkStep, h1, h2]

/-- Claim C7: every operation of the hasher is total.  The `write` path with
every `try_into().unwrap()` made explicit never reaches the failure case (so
no unwrap panics, and no index is out of bounds), and the `try_into`
conversion inside `take_first_chunk` succeeds whenever a chunk is taken,
because a chunk of size `n` is only split off when at least `n` bytes
remain. -/
theorem write_never_panics (w : Width) (h : Nat) (bytes : List Byte) :
    FxHasher.writeChecked w h bytes = some (FxHasher.write w h bytes)
    ∧ ∀ n (s : List Byte),
        ((take_first_chunk_checked n s).all fun p => p.1.isSome) = true := by
  constructor
  · rw [FxHasher.writeChecked, loopChunksChecked_eq w bytes.length h bytes,
      writeChunkStepChecked_eq, writeChunkStepChecked_eq, writeChunkStepChecked_eq]
    rfl
  · intro n s
    by_cases hlen : s.length < n
    · rw [take_first_chunk_checked, if_pos hlen]
      rfl
    · rw [take_first_chunk_checked_eq n s hlen]
      rfl

/-- Claim C8: `finish` returns the accumulator bits as a 64-bit value —
the in-range accumulator itself, zero-extended on the 32-bit width — and
leaves the hasher state unchanged, so further `write` calls behave as on the
original state and repeated `finish` calls return the same value. -/
theorem finish_reads_state (w : Width) (s : Nat) (hs : s < 2 ^ w.bits) :
    FxHasher.finishOp s = (s, s)
    ∧ ∀ bytes, FxHasher.write w (FxHasher.finishOp s).2 bytes
        = FxHasher.write w s bytes := by
  have hs64 : s < 2 ^ 64 := Nat.lt_of_lt_of_le hs (by cases w <;> norm_num [Width.bits])
  exact ⟨by rw [FxHasher.finishOp, Nat.mod_eq_of_lt hs64], fun bytes => rfl⟩

/-- Witness for C8 at a concrete in-range state on the 64-bit width. -/
theorem finish_reads_state_witness :
    FxHasher.finishOp 7 = (7, 7)
    ∧ ∀ bytes, FxHasher.write Width.w64 (FxHasher.finishOp 7).2 bytes
        = FxHasher.write Width.w64 7 bytes :=
  finish_reads_state Width.w64 7 (by decide)

/-! ### The mixing step is a bijection on the accumulator word -/

theorem rotateLeft_lt (bits a : Nat) (hbits : 5 ≤ bits) (ha : a < 2 ^ bits) :
    rotateLeft bits a 5 < 2 ^ bits := by
  rw [rotateLeft_eq_arith bits 5 a hbits ha]
  have hP : 0 < 2 ^ (bits - 5) := Nat.pos_pow_of_pos _ (by norm_num)
  have hm : a % 2 ^ (bits - 5) < 2 ^ (bits - 5) := Nat.mod_lt _ hP
  have hd : a / 2 ^ (bits - 5) < 2 ^ 5 := by
    apply (Nat.div_lt_iff_lt_mul hP).mpr
    calc a < 2 ^ bits := ha
    _ = 2 ^ 5 * 2 ^ (bits - 5) := by rw [← pow_add]; congr 1; omega
  have hpow : 2 ^ (bits - 5) * 2 ^ 5 = 2 ^ bits := by
    rw [← pow_add]; congr 1; omega
  calc a % 2 ^ (bits - 5) * 2 ^ 5 + a / 2 ^ (bits - 5)
      < a % 2 ^ (bits - 5) * 2 ^ 5 + 2 ^ 5 := by omega
  _ = (a % 2 ^ (bits - 5) + 1) * 2 ^ 5 := by ring
  _ ≤ 2 ^ (bits - 5) * 2 ^ 5 := Nat.mul_le_mul_right _ (by omega)
  _ = 2 ^ bits := hpow

theorem rotateLeft_inj (bits a b : Nat) (hbits : 5 ≤ bits)
    (ha : a < 2 ^ bits) (hb : b < 2 ^ bits)
    (heq : rotateLeft bits a 5 = rotateLeft bits b 5) : a = b := by
  rw [rotateLeft_eq_arith bits 5 a hbits ha,
    rotateLeft_eq_arith bits 5 b hbits hb] at heq
  have hP : 0 < 2 ^ (bits - 5) := Nat.pos_pow_of_pos _ (by norm_num)
  have hda : a / 2 ^ (bits - 5) < 2 ^ 5 := by
    apply (Nat.div_lt_iff_lt_mul hP).mpr
    calc a < 2 ^ bits := ha
    _ = 2 ^ 5 * 2 ^ (bits - 5) := by rw [← pow_add]; congr 1; omega
  have hdb : b / 2 ^ (bits - 5) < 2 ^ 5 := by
    apply (Nat.div_lt_iff_lt_mul hP).mpr
    calc b < 2 ^ bits := hb
    _ = 2 ^ 5 * 2 ^ (bits - 5) := by rw [← pow_add]; congr 1; omega
  have h25 : (2 : Nat) ^ 5 = 32 := by norm_num
  rw [h25] at heq hda hdb
  have hdiv_a : (a % 2 ^ (bits - 5) * 32 + a / 2 ^ (bits - 5)) / 32
      = a % 2 ^ (bits - 5) := by
    rw [Nat.mul_comm (a % 2 ^ (bits - 5)) 32, Nat.mul_add_div (by norm_num),
      Nat.div_eq_of_lt hda, Nat.add_zero]
  have hdiv_b : (b % 2 ^ (bits - 5) * 32 + b / 2 ^ (bits - 5)) / 32
      = b % 2 ^ (bits - 5) := by
    rw [Nat.mul_comm (b % 2 ^ (bits - 5)) 32, Nat.mul_add_div (by norm_num),
      Nat.div_eq_of_lt hdb, Nat.add_zero]
  have hmod_a : (a % 2 ^ (bits - 5) * 32 + a / 2 ^ (bits - 5)) % 32
      = a / 2 ^ (bits - 5) := by
    rw [Nat.mul_comm (a % 2 ^ (bits - 5)) 32, Nat.mul_add_mod, Nat.mod_eq_of_lt hda]
  have hmod_b : (b % 2 ^ (bits - 5) * 32 + b / 2 ^ (bits - 5)) % 32
      = b / 2 ^ (bits - 5) := by
    rw [Nat.mul_comm (b % 2 ^ (bits - 5)) 32, Nat.mul_add_mod, Nat.mod_eq_of_lt hdb]
  have hm : a % 2 ^ (bits - 5) = b % 2 ^ (bits - 5) := by
    rw [← hdiv_a, ← hdiv_b, heq]
  have hd : a / 2 ^ (bits - 5) = b / 2 ^ (bits - 5) := by
    rw [← hmod_a, ← hmod_b, heq]
  have ea := Nat.div_add_mod a (2 ^ (bits - 5))
  have eb := Nat.div_add_mod b (2 ^ (bits - 5))
  rw [← hd, ← hm] at eb
  exact ea.symm.trans eb

theorem add_to_hash_inj (w : Width) (i a b : Nat) (hi : i < 2 ^ w.bits)
    (ha : a < 2 ^ w.bits) (hb : b < 2 ^ w.bits)
    (heq : FxHasher.add_to_hash w a i = FxHasher.add_to_hash w b i) : a = b := by
  have hbits5 : 5 ≤ w.bits := by cases w <;> decide
  have hK2 : Nat.Coprime 2 w.K := by cases w <;> decide
  have hKcop : Nat.Coprime (2 ^ w.bits) w.K := Nat.Coprime.pow_left _ hK2
  have hrla : rotateLeft w.bits a 5 < 2 ^ w.bits := rotateLeft_lt w.bits a hbits5 ha
  have hrlb : rotateLeft w.bits b 5 < 2 ^ w.bits := rotateLeft_lt w.bits b hbits5 hb
  have hxa : rotateLeft w.bits a 5 ^^^ i < 2 ^ w.bits := Nat.xor_lt_two_pow hrla hi
  have hxb : rotateLeft w.bits b 5 ^^^ i < 2 ^ w.bits := Nat.xor_lt_two_pow hrlb hi
  rw [FxHasher.add_to_hash, FxHasher.add_to_hash] at heq
  have hmod : (rotateLeft w.bits a 5 ^^^ i) * w.K
      ≡ (rotateLeft w.bits b 5 ^^^ i) * w.K [MOD 2 ^ w.bits] := heq
  have hx := Nat.ModEq.cancel_right_of_coprime hKcop hmod
  have hxeq : rotateLeft w.bits a 5 ^^^ i = rotateLeft w.bits b 5 ^^^ i := by
    have hx2 : (rotateLeft w.bits a 5 ^^^ i) % 2 ^ w.bits
        = (rotateLeft w.bits b 5 ^^^ i) % 2 ^ w.bits := hx
    rwa [Nat.mod_eq_of_lt hxa, Nat.mod_eq_of_lt hxb] at hx2
  have hrleq : rotateLeft w.bits a 5 = rotateLeft w.bits b 5 := by
    have h2 := congrArg (fun x => x ^^^ i) hxeq
    simpa only [Nat.xor_cancel_right] using h2
  exact rotateLeft_inj w.bits a b hbits5 ha hb hrleq

theorem add_to_hash_surj (w : Width) (i y : Nat) (hi : i < 2 ^ w.bits)
    (hy : y < 2 ^ w.bits) :
    ∃ a, a < 2 ^ w.bits ∧ FxHasher.add_to_hash w a i = y := by
  have hsurj : Function.Surjective (fun a : Fin (2 ^ w.bits) =>
      (⟨FxHasher.add_to_hash w a.val i, add_to_hash_lt w a.val i⟩ : Fin (2 ^ w.bits))) := by
    apply Finite.injective_iff_surjective.mp
    intro a b hab
    apply Fin.ext
    exact add_to_hash_inj w i a.val b.val hi a.isLt b.isLt (congrArg Fin.val hab)
  obtain ⟨a, hfa⟩ := hsurj ⟨y, hy⟩
  exact ⟨a.val, a.isLt, congrArg Fin.val hfa⟩

/-! ### `write` is injective in the hasher state -/

theorem foldl_mixStep_lt (w : Width) (chunks : List (List Byte)) :
    ∀ a, a < 2 ^ w.bits → chunks.foldl (mixStep w) a < 2 ^ w.bits := by
  induction chunks with
  | nil => intro a ha; exact ha
  | cons c rest ih => intro a ha; exact ih _ (add_to_hash_lt w a _)

theorem write_lt (w : Width) (h : Nat) (bytes : List Byte) (hh : h < 2 ^ w.bits) :
    FxHasher.write w h bytes < 2 ^ w.bits := by
  rw [write_eq_fold]
  exact foldl_mixStep_lt w _ h hh

theorem chunkSplit_mem_length (n : Nat) (r : List Byte) :
    ∀ c ∈ (chunkSplit n r).1, c.length ≤ n := by
  intro c hc
  rw [chunkSplit, take_first_chunk] at hc
  by_cases hlen : r.length < n
  · rw [if_pos hlen] at hc
    simp at hc
  · rw [if_neg hlen] at hc
    simp only [List.mem_singleton] at hc
    subst hc
    simp only [List.length_take]
    omega

theorem chunksSpec_value_lt (w : Width) (bytes : List Byte) :
    ∀ c ∈ chunksSpec w bytes, fromNeBytes c < 2 ^ w.bits := by
  intro c hc
  have hlen : c.length ≤ w.wordBytes := by
    rcases List.mem_append.mp hc with hcw | hct
    · exact le_of_eq ((wordChunks_spec w bytes).2.2 c hcw)
    · have h4wb : 4 ≤ w.wordBytes := by cases w <;> decide
      rw [tailChunks] at hct
      rcases List.mem_append.mp hct with hct | hct
      · rcases List.mem_append.mp hct with hct | hct
        · exact le_trans (chunkSplit_mem_length 4 _ c hct) h4wb
        · exact le_trans (chunkSplit_mem_length 2 _ c hct) (by omega)
      · exact le_trans (chunkSplit_mem_length 1 _ c hct) (by omega)
  calc fromNeBytes c < 2 ^ (8 * c.length) := fromNeBytes_lt c
  _ ≤ 2 ^ (8 * w.wordBytes) := Nat.pow_le_pow_right (by norm_num) (by omega)
  _ = 2 ^ w.bits := by rw [← Width.bits_eq_eight_mul]

theorem foldl_mixStep_inj (w : Width) :
    ∀ (chunks : List (List Byte)), (∀ c ∈ chunks, fromNeBytes c < 2 ^ w.bits) →
      ∀ a b, a < 2 ^ w.bits → b < 2 ^ w.bits →
        chunks.foldl (mixStep w) a = chunks.foldl (mixStep w) b → a = b := by
  intro chunks
  induction chunks with
  | nil => intro _ a b _ _ h; exact h
  | cons c rest ih =>
    intro hv a b ha hb h
    have hc : fromNeBytes c < 2 ^ w.bits := hv c (List.mem_cons_self c rest)
    have hrest : ∀ d ∈ rest, fromNeBytes d < 2 ^ w.bits :=
      fun d hd => hv d (List.mem_cons_of_mem c hd)
    have h2 := ih hrest (mixStep w a c) (mixStep w b c)
      (add_to_hash_lt w a _) (add_to_hash_lt w b _) h
    exact add_to_hash_inj w (fromNeBytes c) a b hc ha hb h2

theorem write_inj (w : Width) (bytes : List Byte) (a b : Nat)
    (ha : a < 2 ^ w.bits) (hb : b < 2 ^ w.bits)
    (heq : FxHasher.write w a bytes = FxHasher.write w b bytes) : a = b := by
  rw [write_eq_fold, write_eq_fold] at heq
  exact foldl_mixStep_inj w (chunksSpec w bytes) (chunksSpec_value_lt w bytes)
    a b ha hb heq

theorem writeList_lt (w : Width) :
    ∀ (slices : List (List Byte)) (a : Nat), a < 2 ^ w.bits →
      FxHasher.writeList w a slices < 2 ^ w.bits := by
  intro slices
  induction slices with
  | nil => intro a ha; exact ha
  | cons s rest ih => intro a ha; exact ih (FxHasher.write w a s) (write_lt w a s ha)

theorem writeList_inj (w : Width) :
    ∀ (slices : List (List Byte)) (a b : Nat), a < 2 ^ w.bits → b < 2 ^ w.bits →
      FxHasher.writeList w a slices = FxHasher.writeList w b slices → a = b := by
  intro slices
  induction slices with
  | nil => intro a b _ _ h; exact h
  | cons s rest ih =>
    intro a b ha hb h
    have h2 := ih (FxHasher.write w a s) (FxHasher.write w b s)
      (write_lt w a s ha) (write_lt w b s hb) h
    exact write_inj w s a b ha hb h2

/-- Claim C9: for every fixed incoming word `i`, the mixing step is a
bijection on the accumulator word — injective and surjective on `[0, 2^w)` —
and consequently, for every fixed sequence of `write` calls, two hashers with
distinct seeds end in distinct accumulator states and yield distinct
digests. -/
theorem mixing_step_bijective_seed_distinct (w : Width) :
    (∀ i a b, i < 2 ^ w.bits → a < 2 ^ w.bits → b < 2 ^ w.bits →
      FxHasher.add_to_hash w a i = FxHasher.add_to_hash w b i → a = b)
    ∧ (∀ i y, i < 2 ^ w.bits → y < 2 ^ w.bits →
      ∃ a, a < 2 ^ w.bits ∧ FxHasher.add_to_hash w a i = y)
    ∧ (∀ (slices : List (List Byte)) (s1 s2 : Nat),
        s1 < 2 ^ w.bits → s2 < 2 ^ w.bits → s1 ≠ s2 →
        FxHasher.writeList w (FxHasher.with_seed s1) slices
            ≠ FxHasher.writeList w (FxHasher.with_seed s2) slices
        ∧ FxHasher.finish (FxHasher.writeList w (FxHasher.with_seed s1) slices)
            ≠ FxHasher.finish (FxHasher.writeList w (FxHasher.with_seed s2) slices)) := by
  refine ⟨fun i a b hi ha hb => add_to_hash_inj w i a b hi ha hb,
          fun i y hi hy => add_to_hash_surj w i y hi hy, ?_⟩
  intro slices s1 s2 h1 h2 hne
  have hstate : FxHasher.writeList w s1 slices ≠ FxHasher.writeList w s2 slices :=
    fun h => hne (writeList_inj w slices s1 s2 h1 h2 h)
  refine ⟨hstate, fun h => hstate ?_⟩
  have lt64 : ∀ x, x < 2 ^ w.bits → x < 2 ^ 64 :=
    fun x hx => Nat.lt_of_lt_of_le hx (by cases w <;> norm_num [Width.bits])
  have l1 := lt64 _ (writeList_lt w slices s1 h1)
  have l2 := lt64 _ (writeList_lt w slices s2 h2)
  simp only [FxHasher.with_seed] at h
  rwa [FxHasher.finish, FxHasher.finish, Nat.mod_eq_of_lt l1, Nat.mod_eq_of_lt l2] at h

/-- Witness for C9: the seeds 1 and 2 give distinct digests on the input
consisting of one write of the single byte 1, on the 64-bit width. -/
theorem mixing_step_bijective_seed_distinct_witness :
    FxHasher.finish (FxHasher.writeList Width.w64 (FxHasher.with_seed 1) [[1]])
      ≠ FxHasher.finish (FxHasher.writeList Width.w64 (FxHasher.with_seed 2) [[1]]) :=
  ((mixing_step_bijective_seed_distinct Width.w64).2.2 [[1]] 1 2
    (by decide) (by decide) (by decide)).2

/-! ### All-zero inputs collapse to the zero accumulator -/

theorem fromNeBytes_zero (l : List Byte) (hz : ∀ b ∈ l, b = (0 : Byte)) :
    fromNeBytes l = 0 := by
  induction l with
  | nil => rfl
  | cons b rest ih =>
    have hb : b = 0 := hz b (List.mem_cons_self b rest)
    have hrest := ih (fun d hd => hz d (List.mem_cons_of_mem b hd))
    rw [fromNeBytes, hrest, hb]
    simp

theorem add_to_hash_zero (w : Width) : FxHasher.add_to_hash w 0 0 = 0 := by
  cases w <;> decide

theorem write_zero_bytes (w : Width) (bytes : List Byte)
    (hz : ∀ b ∈ bytes, b = (0 : Byte)) :
    FxHasher.write w 0 bytes = 0 := by
  rw [write_eq_fold]
  have hchunks : ∀ c ∈ chunksSpec w bytes, ∀ b ∈ c, b = (0 : Byte) := by
    intro c hc b hb
    apply hz
    rw [← chunksSpec_flatten w bytes]
    exact List.mem_flatten_of_mem hc hb
  have hfold : ∀ (chunks : List (List Byte)),
      (∀ c ∈ chunks, ∀ b ∈ c, b = (0 : Byte)) →
      chunks.foldl (mixStep w) 0 = 0 := by
    intro chunks
    induction chunks with
    | nil => intro _; rfl
    | cons c rest ih =>
      intro hcz
      have hc0 : mixStep w 0 c = 0 := by
        rw [mixStep, fromNeBytes_zero c (hcz c (List.mem_cons_self c rest))]
        exact add_to_hash_zero w
      show rest.foldl (mixStep w) (mixStep w 0 c) = 0
      rw [hc0]
      exact ih (fun d hd b hb => hcz d (List.mem_cons_of_mem c hd) b hb)
  exact hfold (chunksSpec w bytes) hchunks

/-- Claim C10: the zero accumulator is a fixed point of the mixing step on
zero input (`merge(0, 0) = 0`), and consequently a zero-seeded hasher fed any
input consisting solely of zero bytes — of any length, split across any
sequence of `write` calls — yields digest 0, colliding with the empty
input. -/
theorem zero_input_fixed_point (w : Width) (slices : List (List Byte))
    (hz : ∀ s ∈ slices, ∀ b ∈ s, b = (0 : Byte)) :
    FxHasher.add_to_hash w 0 0 = 0
    ∧ FxHasher.finish (FxHasher.writeList w FxHasher.default slices) = 0 := by
  refine ⟨add_to_hash_zero w, ?_⟩
  have hlist : ∀ (sl : List (List Byte)), (∀ s ∈ sl, ∀ b ∈ s, b = (0 : Byte)) →
      FxHasher.writeList w 0 sl = 0 := by
    intro sl
    induction sl with
    | nil => intro _; rfl
    | cons s rest ih =>
      intro hsz
      show rest.foldl (FxHasher.write w) (FxHasher.write w 0 s) = 0
      rw [write_zero_bytes w s (hsz s (List.mem_cons_self s rest))]
      exact ih (fun t ht b hb => hsz t (List.mem_cons_of_mem s ht) b hb)
  simp only [FxHasher.default]
  rw [FxHasher.finish, hlist slices hz]
  exact Nat.zero_mod _

set_option maxRecDepth 4000 in
/-- Witness for C10: three all-zero write calls of total length 13 on the
64-bit width yield digest 0. -/
theorem zero_input_fixed_point_witness :
    FxHasher.add_to_hash Width.w64 0 0 = 0
    ∧ FxHasher.finish (FxHasher.writeList Width.w64 FxHasher.default
        [[0, 0, 0], [0], [0, 0, 0, 0, 0, 0, 0, 0, 0]]) = 0 :=
  zero_input_fixed_point Width.w64 [[0, 0, 0], [0], [0, 0, 0, 0, 0, 0, 0, 0, 0]]
    (by decide)
